import Mathlib

/-!
Verification of the code-recommendation pipeline in `src/src/agent/graph.py`.

The file shallowly embeds the pure cores of the pipeline stages:

* the co-occurrence model built at module load (lines 44-59):
  incidence counts per (CDOKL, KOD) row, the inner-product count matrix with
  zeroed diagonal, and the pandas column-wise min-max normalization with
  `fillna(0)`;
* the dynamic JSON-schema construction in `model` (lines 200-249);
* the keep/remove reconciliation loop at the end of `validate` (lines 326-334);
* the `add_co_occurrence` augmentation stage (lines 337-361), with the
  pandas `KeyError` on a missing column modelled as `none`;
* the `clear` identity-dedup stage (lines 364-372), with the Python dict
  comprehension modelled by an association list updated in place;
* the `edge_chain` stage order (lines 384-394).

Machine reals only appear as exact rationals (`ℚ`); all counts involved are
small integers, on which float arithmetic is exact, so `ℚ` is faithful.
External collaborators (LLM calls, FAISS retrieval, CSV contents) are inputs
to the embedded functions.
-/

set_option maxHeartbeats 1000000
set_option autoImplicit false

/-- A billing-code record as held in `diagnosis.vykony`: the dict
`{code, name, description}` plus the optional `explanation` added by
`validate`/`clear`.  A missing `"explanation"` key and an explicit `None`
are indistinguishable to the code (it only uses `v.get("explanation")`),
so both are modelled as `none`. -/
structure SelectionRecord where
  code : Nat
  name : String
  descr : Option String
  explanation : Option String
deriving DecidableEq

/-- A catalog record `{code, name, description}` from the billing-code
reference catalog (`vykony_cis`). -/
structure CatalogEntry where
  code : Nat
  name : String
  descr : Option String
deriving DecidableEq

/-- The `Literal["keep", "remove"]` action of `VykonAction`. -/
inductive Act where
  | keep
  | remove
deriving DecidableEq

/-- The `VykonAction` pydantic model produced by the validation collaborator:
`{code : int, explanation : str, action : Literal["keep","remove"]}`. -/
structure VykonAction where
  code : Nat
  explanation : String
  action : Act
deriving DecidableEq

/-- Modelled from the spec: `utils.find_vykon_by_code` is imported from
`agent.utils`, which is not under `src/`.  Per the spec, Reference Catalogs
are "static lookup tables mapping ... billing code → {code, name,
description}"; resolving a code returns its catalog record, or nothing when
the code is unknown.  The catalog is passed explicitly as a list of
entries searched by code. -/
def find_vykon_by_code (cat : List CatalogEntry) (c : Nat) : Option CatalogEntry :=
  cat.find? (fun e => e.code == c)

/-! ### Python dict-comprehension semantics

`clear` builds `{int(v["code"]): v for v in vykony}` and `model` builds the
`definitions` dict by repeated `{**acc, **add_code(...)}`.  A Python dict
keeps the position of the first insertion of a key and replaces its value on
re-insertion; we model this with an association list. -/

/-- Insert `(k, v)` into an association list with Python dict semantics:
if the key is present, replace its value in place; otherwise append. -/
def dictInsert {α : Type} (acc : List (Nat × α)) (k : Nat) (v : α) : List (Nat × α) :=
  if acc.any (fun p => p.1 == k) then
    acc.map (fun p => if p.1 == k then (k, v) else p)
  else acc ++ [(k, v)]

/-- Fold a list of key-value pairs into an association list, in order. -/
def buildDict {α : Type} (acc ins : List (Nat × α)) : List (Nat × α) :=
  ins.foldl (fun a p => dictInsert a p.1 p.2) acc

/-- The keys of an association list, in order. -/
def keys {α : Type} (d : List (Nat × α)) : List Nat :=
  d.map Prod.fst

/-- Look up a key in an association list (first match). -/
def lookupDict {α : Type} (d : List (Nat × α)) (k : Nat) : Option α :=
  (d.find? (fun p => p.1 == k)).map Prod.snd

/-! ### The `clear` stage (graph.py lines 364-372) -/

/-- One step of the `clear` list comprehensions: pair a record with
`find_vykon_by_code(v["code"])`, drop it if the lookup fails, and
otherwise build `{**valid, "explanation": v.get("explanation")}`. -/
def resolveRecord (cat : List CatalogEntry) (v : SelectionRecord) : Option SelectionRecord :=
  (find_vykon_by_code cat v.code).map (fun e => ⟨e.code, e.name, e.descr, v.explanation⟩)

/-- The two list comprehensions of `clear` before the final dict dedup. -/
def resolveList (cat : List CatalogEntry) (vs : List SelectionRecord) : List SelectionRecord :=
  vs.filterMap (resolveRecord cat)

/-- The final line of `clear`: `list({int(v["code"]): v for v in vykony}.values())`. -/
def dedupByCode (vs : List SelectionRecord) : List SelectionRecord :=
  (buildDict [] (vs.map (fun v => (v.code, v)))).map Prod.snd

/-- The `clear` stage (graph.py lines 364-372): resolve every record against
the catalog, drop unresolved ones, then dedup by code with Python dict
semantics. -/
def clear (cat : List CatalogEntry) (vs : List SelectionRecord) : List SelectionRecord :=
  dedupByCode (resolveList cat vs)

/-! ### The reconciliation loop of `validate` (graph.py lines 326-334) -/

/-- One iteration of the `validate` loop: look up the first verdict with a
matching code (`next((v for v in validation.vykony if v.code == vykon["code"]), None)`);
keep the record unless a matching verdict says `remove`, attaching the
verdict's explanation (or `None` when there is no verdict). -/
def reconcileOne (verdicts : List VykonAction) (v : SelectionRecord) : Option SelectionRecord :=
  match verdicts.find? (fun w => w.code == v.code) with
  | none => some { v with explanation := none }
  | some w =>
    if w.action = Act.remove then none
    else some { v with explanation := some w.explanation }

/-- The pure core of the `validate` stage: the loop building `new_vykony`
from `state.diagnosis["vykony"]` and the collaborator's verdict list. -/
def validate (verdicts : List VykonAction) (vs : List SelectionRecord) : List SelectionRecord :=
  vs.filterMap (reconcileOne verdicts)

/-! ### The co-occurrence model (graph.py lines 44-59)

The historical transaction table `vyk_23_vykony_new.csv` is a list of rows,
each pairing a transaction id `CDOKL` with a billing code `KOD`; it is an
external input and is passed as `txns : List (Nat × Nat)`.

`pd.get_dummies(vykony.set_index("CDOKL")["KOD"]).groupby("CDOKL").sum()`
one-hot encodes each row and sums per transaction, so the incidence entry at
`(t, c)` is the number of rows `(t, c)`; `np.dot(pivot.T, pivot)` is the
code-by-code inner product; `np.fill_diagonal(matrix, 0)` zeroes the
diagonal.  The normalization `(df - df.min()) / (df.max() - df.min())` is a
pandas expression whose `min`/`max` are per column, so each column is
min-max normalized with its own bounds; `fillna(0)` replaces the `0/0 = NaN`
cells of constant columns (the numerator is also zero there) with `0`. -/

/-- Incidence: how many rows of the transaction table pair `CDOKL = t` with
`KOD = c`. -/
def incidence (txns : List (Nat × Nat)) (t c : Nat) : Nat :=
  (txns.filter (fun p => p.1 == t && p.2 == c)).length

/-- The distinct transaction ids (the index of `vykony_pivot`). -/
def docIds (txns : List (Nat × Nat)) : List Nat :=
  (txns.map Prod.fst).dedup

/-- The distinct billing codes of the table (the columns of `vykony_pivot`,
hence the row/column labels of the co-occurrence matrix).  pandas sorts the
columns; only membership matters below, so the order of `dedup` is
immaterial. -/
def codes (txns : List (Nat × Nat)) : List Nat :=
  (txns.map Prod.snd).dedup

/-- `np.dot(vykony_pivot.T, vykony_pivot)` at `(a, b)`: the sum over
transactions of the product of incidences. -/
def rawCo (txns : List (Nat × Nat)) (a b : Nat) : Nat :=
  ((docIds txns).map (fun t => incidence txns t a * incidence txns t b)).sum

/-- The count matrix after `np.fill_diagonal(co_occurrence_matrix, 0)`. -/
def coMatrix (txns : List (Nat × Nat)) (a b : Nat) : Nat :=
  if a = b then 0 else rawCo txns a b

/-- The entries of column `b` of the co-occurrence matrix (one per row
label). -/
def colVals (txns : List (Nat × Nat)) (b : Nat) : List Nat :=
  (codes txns).map (fun a => coMatrix txns a b)

/-- `co_occurrence_df.min()` at column `b` (pandas column-wise minimum). -/
def colMin (txns : List (Nat × Nat)) (b : Nat) : Nat :=
  match colVals txns b with
  | [] => 0
  | x :: xs => xs.foldl Nat.min x

/-- `co_occurrence_df.max()` at column `b` (pandas column-wise maximum). -/
def colMax (txns : List (Nat × Nat)) (b : Nat) : Nat :=
  match colVals txns b with
  | [] => 0
  | x :: xs => xs.foldl Nat.max x

/-- `co_occurrence_df_normalized` at row `a`, column `b`:
`(value - columnMin) / (columnMax - columnMin)`, with the `NaN` cells of
constant columns set to `0` by `fillna(0)` (when the column is constant the
numerator is also zero, so `0/0 = NaN` is the only `NaN` source). -/
def strength (txns : List (Nat × Nat)) (a b : Nat) : ℚ :=
  if colMax txns b = colMin txns b then 0
  else ((coMatrix txns a b : ℚ) - (colMin txns b : ℚ)) /
    ((colMax txns b : ℚ) - (colMin txns b : ℚ))

/-! ### The schema built by `model` (graph.py lines 200-249)

`suggested_vykony` is the candidate list collected from
`utils.get_vykony_per_diagnosis`; it is an input here (`cands`).  `add_code`
appends `{"$ref": "#/definitions/<code>"}` to `code_refs` and returns one
`definitions` entry keyed by `str(code)`; the `reduce` merges those entries
into a dict, so a repeated code keeps its first position with the last
entry's value.  An entry constrains `code` and `name` by `const`, requires
them, and constrains/requires `description` exactly when the Python value is
truthy (neither `None` nor `""`).  The `vykony` property is an array with
`items.anyOf = code_refs` and `minItems: 1`. -/

/-- Python truthiness of an optional string (`if description` in `add_code`). -/
def pyTruthy : Option String → Bool
  | none => false
  | some s => !(s == "")

/-- One `definitions` entry: the `const` values required of `code` and
`name`, and of `description` when present. -/
structure JsonDef where
  code : Nat
  name : String
  descrConst : Option String
deriving DecidableEq

/-- The `definitions` entry built by `add_code` for one candidate. -/
def add_code (e : CatalogEntry) : JsonDef :=
  { code := e.code, name := e.name
    descrConst := if pyTruthy e.descr then e.descr else none }

/-- The `definitions` dict built by the `reduce` over `suggested_vykony`. -/
def buildDefs (cands : List CatalogEntry) : List (Nat × JsonDef) :=
  buildDict [] (cands.map (fun e => (e.code, add_code e)))

/-- `code_refs`: one `$ref` (identified by its code) appended per candidate,
duplicates included. -/
def buildRefs (cands : List CatalogEntry) : List Nat :=
  cands.map CatalogEntry.code

/-- JSON-Schema validation of one `vykony` item against one definition:
the `const`/`required` constraints on `code`, `name` and (when constrained)
`description`. -/
def defAccepts (d : JsonDef) (r : CatalogEntry) : Bool :=
  r.code == d.code && r.name == d.name &&
    (match d.descrConst with
     | some s => r.descr == some s
     | none => true)

/-- JSON-Schema validation of one `vykony` item: `anyOf` over `code_refs`,
each ref resolving in the `definitions` dict. -/
def itemAccepts (defs : List (Nat × JsonDef)) (refs : List Nat) (r : CatalogEntry) : Bool :=
  refs.any (fun k =>
    match lookupDict defs k with
    | some d => defAccepts d r
    | none => false)

/-- JSON-Schema validation of a value of the `vykony` property: an array
with `minItems: 1` whose items all satisfy the `anyOf`. -/
def schemaAccepts (cands : List CatalogEntry) (rs : List CatalogEntry) : Bool :=
  decide (1 ≤ rs.length) && rs.all (itemAccepts (buildDefs cands) (buildRefs cands))

/-! ### The `add_co_occurrence` stage (graph.py lines 337-361)

`similarity_search` is external; its result is passed as the list of the
retrieved documents' `code` payloads (`docCodes`).  When retrieval returns
zero documents, `pd.DataFrame([])` has no columns and `docs["code"]` raises
`KeyError`; likewise `co_occurrence_df_normalized[["kod", code]]` raises
`KeyError` when an anchor code is not a column of the matrix.  Both failure
modes are modelled as `none`.

For each anchor `code`, the stage keeps the matrix rows whose `kod` is in
the hardcoded pivot set `[42022, 9543]` and whose value in column `code` is
`>= 0.6`, and collects those rows' `kod` values (the pivot codes, not the
anchor).  `sort_values` only orders `to_add_codes`, which is then fed to
`set(...)`, whose iteration order Python leaves unspecified; the set is
modelled as `List.dedup`, and nothing below depends on its order.  Each
collected code that resolves via the catalog is appended to a copy of the
current `vykony` list, with no check against codes already present. -/

/-- The hardcoded pivot set `[42022, 9543]`. -/
def pivots : List Nat := [42022, 9543]

/-- `to_add_codes`: for each retrieved anchor code, the pivot rows of the
normalized matrix whose strength in the anchor's column is at least 0.6. -/
def toAddCodes (txns : List (Nat × Nat)) (docCodes : List Nat) : List Nat :=
  docCodes.flatMap (fun c =>
    (codes txns).filter
      (fun p => decide (p ∈ pivots) && decide ((0.6 : ℚ) ≤ strength txns p c)))

/-- The `add_co_occurrence` stage.  `none` models the pandas `KeyError`
raised when retrieval yields no documents or an anchor code is not in the
matrix vocabulary. -/
def add_co_occurrence (txns : List (Nat × Nat)) (cat : List CatalogEntry)
    (docCodes : List Nat) (vykony : List SelectionRecord) :
    Option (List SelectionRecord) :=
  if docCodes = [] then none
  else if docCodes.all (fun c => decide (c ∈ codes txns)) then
    some (vykony ++ (toAddCodes txns docCodes).dedup.filterMap
      (fun c => (find_vykon_by_code cat c).map (fun e => ⟨e.code, e.name, e.descr, none⟩)))
  else none

/-! ### The stage order (graph.py lines 384-394) -/

/-- The `edge_chain` list wired into the `StateGraph` (the commented-out
`"abbrev"` entry excluded, as in the source). -/
def edge_chain : List String :=
  ["__start__", "preprocess", "model", "validate", "clear", "add_co_occurrence"]

/-- The composition of the pure stage cores from the `model` output onward,
in `edge_chain` order: `validate`, then `clear`, then `add_co_occurrence`.
Its result is the terminal `diagnosis.vykony`. -/
def pipelineFinal (txns : List (Nat × Nat)) (cat : List CatalogEntry)
    (verdicts : List VykonAction) (docCodes : List Nat)
    (modelVykony : List SelectionRecord) : Option (List SelectionRecord) :=
  add_co_occurrence txns cat docCodes (clear cat (validate verdicts modelVykony))

/-! ### Specification-side helpers -/

/-- `firstDedupEx seen xs` removes from `xs` every element already in `seen`
and every repetition, keeping first occurrences in order.  It characterizes
the key order of a Python dict built by iterated insertion. -/
def firstDedupEx (seen : List Nat) : List Nat → List Nat
  | [] => []
  | x :: xs => if x ∈ seen then firstDedupEx seen xs else x :: firstDedupEx (x :: seen) xs

/-- `firstDedup xs` keeps the first occurrence of every element of `xs`, in
order of first occurrence. -/
def firstDedup (xs : List Nat) : List Nat := firstDedupEx [] xs

/-- Forget the explanation of a record (used to compare a `validate` output
record with the input record it came from). -/
def eraseExpl (r : SelectionRecord) : SelectionRecord := { r with explanation := none }

/-! ### Concrete instances used by the counterexamples and witnesses -/

/-- A transaction table on codes `{10, 20, 30}`: one claim bills 10 with 20,
two claims bill 10 with 30.  Column 20 then has maximum 1 while column 10
has maximum 2, so the column-wise normalization is asymmetric. -/
def txnsSym : List (Nat × Nat) :=
  [(1, 10), (1, 20), (2, 10), (2, 30), (3, 10), (3, 30)]

/-- A transaction table on codes `{42022, 100, 7}`: three claims bill the
pivot 42022 with the anchor 100, four claims bill 7 with 100.  Column 100
has minimum 0 and maximum 4, so `strength 42022 100 = 3/4 = 0.75`. -/
def txnsAug : List (Nat × Nat) :=
  [(1, 42022), (1, 100), (2, 42022), (2, 100), (3, 42022), (3, 100),
   (4, 7), (4, 100), (5, 7), (5, 100), (6, 7), (6, 100), (7, 7), (7, 100)]

/-- A catalog resolving the anchor code 100 and the pivot code 42022. -/
def catAug : List CatalogEntry :=
  [⟨100, "Anchor", none⟩, ⟨42022, "Pivot", none⟩]

/-- The selection record of the pivot code 42022 resolved via `catAug`. -/
def recPivot : SelectionRecord := ⟨42022, "Pivot", none, none⟩

/-- A catalog with two entries, for the dedup counterexample. -/
def catDup : List CatalogEntry := [⟨1, "A", none⟩, ⟨2, "B", none⟩]

/-- A selection list in which code 1 occurs first and last around code 2,
with different explanations. -/
def vsDup : List SelectionRecord :=
  [⟨1, "x", none, some "a"⟩, ⟨2, "y", none, none⟩, ⟨1, "z", none, some "c"⟩]

/-- A `keep` verdict for code 7 with explanation "ok". -/
def wKeep : VykonAction := ⟨7, "ok", Act.keep⟩

/-- A selection record with code 7 and a pre-existing explanation. -/
def recSeven : SelectionRecord := ⟨7, "n", none, some "x"⟩

/-- A one-entry candidate catalog record, for the schema witness. -/
def ceFive : CatalogEntry := ⟨5, "a", none⟩

/-- Evaluation: in `txnsSym`, code 10 co-occurs once with 20 and the
maximum of column 20 is 1, so the normalized cell at (10, 20) is 1. -/
theorem strength_sym_10_20 : strength txnsSym 10 20 = 1 := by
  have h1 : colMax txnsSym 20 = 1 := by decide
  have h2 : colMin txnsSym 20 = 0 := by decide
  have h3 : coMatrix txnsSym 10 20 = 1 := by decide
  unfold strength
  rw [h1, h2, h3]
  norm_num

/-- Evaluation: the maximum of column 10 is 2, so the normalized cell at
(20, 10) is 1/2 — different from the cell at (10, 20). -/
theorem strength_sym_20_10 : strength txnsSym 20 10 = 1/2 := by
  have h1 : colMax txnsSym 10 = 2 := by decide
  have h2 : colMin txnsSym 10 = 0 := by decide
  have h3 : coMatrix txnsSym 20 10 = 1 := by decide
  unfold strength
  rw [h1, h2, h3]
  norm_num

/-- Evaluation: in `txnsAug` the pivot 42022 co-occurs 3 times with the
anchor 100, and the maximum of column 100 is 4, so
`strength 42022 100 = 0.75`. -/
theorem strength_aug_42022_100 : strength txnsAug 42022 100 = 3/4 := by
  have h1 : colMax txnsAug 100 = 4 := by decide
  have h2 : colMin txnsAug 100 = 0 := by decide
  have h3 : coMatrix txnsAug 42022 100 = 3 := by decide
  unfold strength
  rw [h1, h2, h3]
  norm_num

/-- Evaluation of the threshold comparison used by the witnesses. -/
theorem strength_aug_ge : (0.6 : ℚ) ≤ strength txnsAug 42022 100 := by
  rw [strength_aug_42022_100]
  norm_num

/-- Evaluation of `to_add_codes` for the single retrieved anchor 100 on
`txnsAug`: only the pivot row 42022 clears the 0.6 threshold, and it is the
pivot code that is collected. -/
theorem toAdd_aug : toAddCodes txnsAug [100] = [42022] := by
  have hc : codes txnsAug = [42022, 7, 100] := by decide
  have p1 : (decide ((42022:Nat) ∈ pivots) &&
      decide ((0.6 : ℚ) ≤ strength txnsAug 42022 100)) = true := by
    rw [strength_aug_42022_100]
    norm_num [pivots]
  have p2 : (decide ((7:Nat) ∈ pivots) &&
      decide ((0.6 : ℚ) ≤ strength txnsAug 7 100)) = false := by
    simp [pivots]
  have p3 : (decide ((100:Nat) ∈ pivots) &&
      decide ((0.6 : ℚ) ≤ strength txnsAug 100 100)) = false := by
    simp [pivots]
  unfold toAddCodes
  rw [hc]
  simp only [List.flatMap_cons, List.flatMap_nil, List.filter_cons, List.filter_nil,
    p1, p2, p3, List.append_nil]
  simp

/-- Evaluation of the augmentation stage on `txnsAug`: anchor 100 is
retrieved with `strength 42022 100 = 0.75 ≥ 0.6`, and the stage appends the
pivot record, not the anchor. -/
theorem add_co_aug : add_co_occurrence txnsAug catAug [100] [] = some [recPivot] := by
  unfold add_co_occurrence
  rw [toAdd_aug]
  decide

/-- Evaluation of the pipeline tail on `txnsAug` starting from a model
output already holding the pivot record: the terminal list holds it twice. -/
theorem pipeline_aug : pipelineFinal txnsAug catAug [] [100] [recPivot] =
    some [recPivot, recPivot] := by
  unfold pipelineFinal
  have h : clear catAug (validate [] [recPivot]) = [recPivot] := by decide
  rw [h]
  unfold add_co_occurrence
  rw [toAdd_aug]
  decide

/-! ### Association-list lemmas for the Python dict model -/

/-- Pointwise-equal maps over the members of a list agree. -/
theorem map_congr_mem {α β : Type} (l : List α) (f g : α → β)
    (h : ∀ a ∈ l, f a = g a) : l.map f = l.map g := by
  induction l with
  | nil => rfl
  | cons x xs ih =>
    simp only [List.map_cons, h x (List.mem_cons_self x xs)]
    rw [ih (fun a ha => h a (List.mem_cons_of_mem x ha))]

/-- Unfolding `buildDict` on the empty insertion list. -/
theorem buildDict_nil {α : Type} (acc : List (Nat × α)) : buildDict acc [] = acc := rfl

/-- Unfolding `buildDict` on a cons. -/
theorem buildDict_cons {α : Type} (acc : List (Nat × α)) (q : Nat × α) (ins : List (Nat × α)) :
    buildDict acc (q :: ins) = buildDict (dictInsert acc q.1 q.2) ins := rfl

/-- An entry of `dictInsert acc k v` is an entry of `acc` or the inserted pair. -/
theorem dictInsert_mem {α : Type} (acc : List (Nat × α)) (k : Nat) (v : α)
    (p : Nat × α) (hp : p ∈ dictInsert acc k v) : p ∈ acc ∨ p = (k, v) := by
  unfold dictInsert at hp
  split at hp
  · rcases List.mem_map.mp hp with ⟨q, hq, hqe⟩
    split at hqe
    · right
      exact hqe.symm
    · left
      exact hqe ▸ hq
  · rcases List.mem_append.mp hp with h | h
    · left
      exact h
    · right
      simpa using h

/-- A property of entries closed under the inserted pairs holds for every
entry of the built dict. -/
theorem buildDict_mem_prop {α : Type} (P : Nat × α → Prop) :
    ∀ (ins acc : List (Nat × α)), (∀ p ∈ acc, P p) → (∀ p ∈ ins, P p) →
      ∀ p ∈ buildDict acc ins, P p := by
  intro ins
  induction ins with
  | nil =>
    intro acc ha _ p hp
    exact ha p hp
  | cons q ins ih =>
    intro acc ha hi p hp
    rw [buildDict_cons] at hp
    refine ih (dictInsert acc q.1 q.2) ?_ ?_ p hp
    · intro r hr
      rcases dictInsert_mem acc q.1 q.2 r hr with h | h
      · exact ha r h
      · subst h
        exact hi q (List.mem_cons_self q ins)
    · intro r hr
      exact hi r (List.mem_cons_of_mem q hr)

/-- The Bool key-membership test of `dictInsert` agrees with `keys`. -/
theorem anyKey_eq_true {α : Type} (acc : List (Nat × α)) (k : Nat) :
    (acc.any (fun p => p.1 == k)) = true ↔ k ∈ keys acc := by
  rw [List.any_eq_true]
  constructor
  · rintro ⟨p, hp, hpk⟩
    exact (eq_of_beq hpk) ▸ List.mem_map_of_mem Prod.fst hp
  · intro h
    rcases List.mem_map.mp h with ⟨p, hp, rfl⟩
    exact ⟨p, hp, beq_self_eq_true _⟩

/-- Inserting a present key keeps the key list unchanged. -/
theorem keys_dictInsert_of_mem {α : Type} (acc : List (Nat × α)) (k : Nat) (v : α)
    (h : k ∈ keys acc) : keys (dictInsert acc k v) = keys acc := by
  unfold dictInsert
  rw [if_pos ((anyKey_eq_true acc k).mpr h)]
  unfold keys
  rw [List.map_map]
  apply map_congr_mem
  intro p _
  by_cases hc : p.1 == k
  · simp only [Function.comp_apply, if_pos hc]
    exact (eq_of_beq hc).symm
  · simp only [Function.comp_apply, if_neg hc]

/-- Inserting an absent key appends it to the key list. -/
theorem keys_dictInsert_of_not_mem {α : Type} (acc : List (Nat × α)) (k : Nat) (v : α)
    (h : k ∉ keys acc) : keys (dictInsert acc k v) = keys acc ++ [k] := by
  unfold dictInsert
  rw [if_neg (fun hc => h ((anyKey_eq_true acc k).mp hc))]
  simp [keys]

/-- The built dict has pairwise-distinct keys. -/
theorem keys_buildDict_nodup {α : Type} :
    ∀ (ins acc : List (Nat × α)), (keys acc).Nodup → (keys (buildDict acc ins)).Nodup := by
  intro ins
  induction ins with
  | nil =>
    intro acc h
    exact h
  | cons q ins ih =>
    intro acc h
    rw [buildDict_cons]
    by_cases hk : q.1 ∈ keys acc
    · exact ih _ (by rw [keys_dictInsert_of_mem _ _ _ hk]; exact h)
    · refine ih _ ?_
      rw [keys_dictInsert_of_not_mem _ _ _ hk, List.nodup_append]
      refine ⟨h, List.nodup_singleton _, ?_⟩
      intro a ha hb
      rw [List.mem_singleton] at hb
      exact hk (hb ▸ ha)

/-- Unfolding `firstDedupEx` on the empty list. -/
theorem firstDedupEx_nil (seen : List Nat) : firstDedupEx seen [] = [] := rfl

/-- Unfolding `firstDedupEx` on a cons. -/
theorem firstDedupEx_cons (seen : List Nat) (x : Nat) (xs : List Nat) :
    firstDedupEx seen (x :: xs) =
      if x ∈ seen then firstDedupEx seen xs else x :: firstDedupEx (x :: seen) xs := rfl

/-- Seen lists equal up to membership produce the same `firstDedupEx`. -/
theorem firstDedupEx_congr :
    ∀ (xs seen seen' : List Nat), (∀ a, a ∈ seen ↔ a ∈ seen') →
      firstDedupEx seen xs = firstDedupEx seen' xs := by
  intro xs
  induction xs with
  | nil =>
    intro seen seen' _
    rfl
  | cons x xs ih =>
    intro seen seen' h
    rw [firstDedupEx_cons, firstDedupEx_cons]
    by_cases hx : x ∈ seen
    · rw [if_pos hx, if_pos ((h x).mp hx), ih seen seen' h]
    · rw [if_neg hx, if_neg (fun hc => hx ((h x).mpr hc))]
      rw [ih (x :: seen) (x :: seen') (by intro a; simp [h a])]

/-- The key list of a built dict: the accumulator's keys followed by the
first occurrences of the new keys. -/
theorem keys_buildDict {α : Type} :
    ∀ (ins acc : List (Nat × α)),
      keys (buildDict acc ins) = keys acc ++ firstDedupEx (keys acc) (keys ins) := by
  intro ins
  induction ins with
  | nil =>
    intro acc
    rw [buildDict_nil]
    show keys acc = keys acc ++ firstDedupEx (keys acc) []
    rw [firstDedupEx_nil, List.append_nil]
  | cons q ins ih =>
    intro acc
    rw [buildDict_cons, ih]
    show _ = keys acc ++ firstDedupEx (keys acc) (q.1 :: keys ins)
    rw [firstDedupEx_cons]
    by_cases hk : q.1 ∈ keys acc
    · rw [if_pos hk, keys_dictInsert_of_mem _ _ _ hk]
    · rw [if_neg hk, keys_dictInsert_of_not_mem _ _ _ hk]
      rw [firstDedupEx_congr (keys ins) (keys acc ++ [q.1]) (q.1 :: keys acc)
        (by intro a; simp [or_comm])]
      simp


/-- `List.find?_some` with the predicate explicit, to guide unification. -/
theorem find?_pred {α : Type} (p : α → Bool) (l : List α) (a : α)
    (h : List.find? p l = some a) : p a = true :=
  List.find?_some h

/-- `List.find?_cons_of_pos` with the predicate explicit, for rewriting. -/
theorem find?_cons_pos {α : Type} (p : α → Bool) (a : α) (l : List α) (h : p a = true) :
    List.find? p (a :: l) = some a :=
  List.find?_cons_of_pos l h

/-- `List.find?_cons_of_neg` with the predicate explicit, for rewriting. -/
theorem find?_cons_neg {α : Type} (p : α → Bool) (a : α) (l : List α) (h : p a = false) :
    List.find? p (a :: l) = List.find? p l :=
  List.find?_cons_of_neg l (by simp [h])

/-- Replacing the value at key `k` makes the first match at `k` the new pair. -/
theorem find?_map_replace {α : Type} (k : Nat) (v : α) :
    ∀ (acc : List (Nat × α)), acc.any (fun p => p.1 == k) = true →
      ((acc.map fun q => if q.1 == k then (k, v) else q).find? fun p => p.1 == k) =
        some (k, v) := by
  intro acc
  induction acc with
  | nil =>
    intro h
    simp at h
  | cons q rest ih =>
    intro h
    rw [List.map_cons]
    by_cases hq : (q.1 == k) = true
    · rw [if_pos hq]
      exact find?_cons_pos (fun p => p.1 == k) (k, v) _ (beq_self_eq_true k)
    · rw [if_neg hq]
      rw [find?_cons_neg (fun p => p.1 == k) q _ (Bool.not_eq_true _ ▸ hq)]
      apply ih
      rw [List.any_cons] at h
      simpa [hq] using h

/-- Looking up the just-inserted key returns the new value. -/
theorem lookupDict_dictInsert_self {α : Type} (acc : List (Nat × α)) (k : Nat) (v : α) :
    lookupDict (dictInsert acc k v) k = some v := by
  unfold dictInsert lookupDict
  split
  next h =>
    rw [find?_map_replace k v acc h]
    rfl
  next h =>
    have hn : acc.find? (fun p => p.1 == k) = none := by
      rw [List.find?_eq_none]
      intro p hp hpk
      exact h (List.any_eq_true.mpr ⟨p, hp, hpk⟩)
    rw [List.find?_append, hn]
    simp [List.find?]

/-- Replacing the value at key `k` does not change the first match at
another key. -/
theorem find?_map_replace_ne {α : Type} (k : Nat) (v : α) (k2 : Nat) (h : k2 ≠ k) :
    ∀ (acc : List (Nat × α)),
      ((acc.map fun q => if q.1 == k then (k, v) else q).find? fun p => p.1 == k2) =
        acc.find? fun p => p.1 == k2 := by
  intro acc
  induction acc with
  | nil => rfl
  | cons q rest ih =>
    rw [List.map_cons]
    by_cases hq2 : (q.1 == k2) = true
    · have hqk : (q.1 == k) = false := by
        rw [beq_eq_false_iff_ne]
        intro hc
        exact h ((eq_of_beq hq2).symm.trans hc)
      rw [if_neg (Bool.not_eq_true _ ▸ hqk)]
      rw [find?_cons_pos (fun p => p.1 == k2) q _ hq2,
        find?_cons_pos (fun p => p.1 == k2) q rest hq2]
    · have hq2f : (q.1 == k2) = false := Bool.not_eq_true _ ▸ hq2
      by_cases hqk : (q.1 == k) = true
      · rw [if_pos hqk]
        have hkk2 : ((k:Nat) == k2) = false := by
          rw [beq_eq_false_iff_ne]
          exact fun hc => h hc.symm
        rw [find?_cons_neg (fun p => p.1 == k2) (k, v) _ hkk2,
          find?_cons_neg (fun p => p.1 == k2) q rest hq2f]
        exact ih
      · rw [if_neg hqk]
        rw [find?_cons_neg (fun p => p.1 == k2) q _ hq2f,
          find?_cons_neg (fun p => p.1 == k2) q rest hq2f]
        exact ih

/-- Looking up a different key is unaffected by an insertion. -/
theorem lookupDict_dictInsert_ne {α : Type} (acc : List (Nat × α)) (k : Nat) (v : α)
    (k2 : Nat) (h : k2 ≠ k) :
    lookupDict (dictInsert acc k v) k2 = lookupDict acc k2 := by
  unfold dictInsert lookupDict
  split
  · rw [find?_map_replace_ne k v k2 h acc]
  · rw [List.find?_append]
    have h1 : ([((k:Nat), v)].find? fun p => p.1 == k2) = none := by
      rw [List.find?_eq_none]
      intro p hp hpk
      rw [List.mem_singleton] at hp
      subst hp
      exact h (eq_of_beq hpk).symm
    rw [h1]
    cases hf : acc.find? (fun p => p.1 == k2) with
    | some p => simp
    | none => simp

/-- The value found in a built dict at key `k` is the value of the last
inserted pair with that key, or the accumulator's value when none was
inserted. -/
theorem lookupDict_buildDict {α : Type} :
    ∀ (ins acc : List (Nat × α)) (k : Nat),
      lookupDict (buildDict acc ins) k =
        match ins.reverse.find? (fun p => p.1 == k) with
        | some p => some p.2
        | none => lookupDict acc k := by
  intro ins
  induction ins with
  | nil =>
    intro acc k
    rw [buildDict_nil]
    rfl
  | cons q ins ih =>
    intro acc k
    rw [buildDict_cons, ih, List.reverse_cons, List.find?_append]
    cases hf : ins.reverse.find? (fun p => p.1 == k) with
    | some p => simp
    | none =>
      simp only [Option.none_or]
      by_cases hq : (q.1 == k) = true
      · have hk : q.1 = k := eq_of_beq hq
        subst hk
        rw [lookupDict_dictInsert_self]
        rw [find?_cons_pos (fun p => p.1 == q.1) (q.1, q.2) [] (beq_self_eq_true q.1)]
      · have hne : k ≠ q.1 := fun hc => hq (hc ▸ beq_self_eq_true k)
        rw [lookupDict_dictInsert_ne acc q.1 q.2 k hne]
        rw [find?_cons_neg (fun p => p.1 == k) (q.1, q.2) [] (Bool.not_eq_true _ ▸ hq)]
        rfl

/-- In a dict with pairwise-distinct keys, every entry is found at its key. -/
theorem lookupDict_of_mem_nodup {α : Type} :
    ∀ (d : List (Nat × α)), (keys d).Nodup → ∀ p ∈ d, lookupDict d p.1 = some p.2 := by
  intro d
  induction d with
  | nil =>
    intro _ p hp
    cases hp
  | cons q rest ih =>
    intro hnd p hp
    have hnd' : (q.1 :: keys rest).Nodup := hnd
    rcases List.mem_cons.mp hp with rfl | hp'
    · unfold lookupDict
      rw [find?_cons_pos (fun r => r.1 == p.1) p rest (beq_self_eq_true p.1)]
      rfl
    · have hk : p.1 ∈ keys rest := List.mem_map_of_mem Prod.fst hp'
      have hq1 : (q.1 == p.1) = false := by
        rw [beq_eq_false_iff_ne]
        intro hc
        exact (List.nodup_cons.mp hnd').1 (hc ▸ hk)
      unfold lookupDict
      rw [find?_cons_neg (fun r => r.1 == p.1) q rest hq1]
      exact ih (List.nodup_cons.mp hnd').2 p hp'

/-! ### Characterization of `dedupByCode` (the Python dict dedup) -/

/-- Entries of the dict built by `dedupByCode` carry their own code as key
and come from the input list. -/
theorem dedupDict_prop (rs : List SelectionRecord) :
    ∀ p ∈ buildDict [] (rs.map (fun v => (v.code, v))), p.2.code = p.1 ∧ p.2 ∈ rs := by
  apply buildDict_mem_prop
  · intro p hp
    exact absurd hp (List.not_mem_nil p)
  · intro p hp
    rcases List.mem_map.mp hp with ⟨v, hv, rfl⟩
    exact ⟨rfl, hv⟩

/-- Every record surviving `dedupByCode` is a record of the input list. -/
theorem dedupByCode_mem (rs : List SelectionRecord) :
    ∀ r ∈ dedupByCode rs, r ∈ rs := by
  intro r hr
  obtain ⟨p, hp, hsnd⟩ :=
    List.mem_map.mp (show r ∈ (buildDict [] (rs.map (fun v => (v.code, v)))).map Prod.snd from hr)
  exact hsnd ▸ (dedupDict_prop rs p hp).2

/-- The keys of the dict built by `dedupByCode` are the input codes. -/
theorem dedupDict_keys (rs : List SelectionRecord) :
    keys (rs.map (fun v => (v.code, v))) = rs.map SelectionRecord.code := by
  unfold keys
  rw [List.map_map]
  rfl

/-- The codes of `dedupByCode rs`, in order: the first occurrence of every
input code. -/
theorem dedupByCode_map_code (rs : List SelectionRecord) :
    (dedupByCode rs).map SelectionRecord.code = firstDedup (rs.map SelectionRecord.code) := by
  unfold dedupByCode
  rw [List.map_map]
  have h1 : (buildDict [] (rs.map (fun v => (v.code, v)))).map
      (SelectionRecord.code ∘ Prod.snd) =
      keys (buildDict [] (rs.map (fun v => (v.code, v)))) := by
    unfold keys
    apply map_congr_mem
    intro p hp
    exact (dedupDict_prop rs p hp).1
  rw [h1, keys_buildDict]
  unfold firstDedup
  rw [dedupDict_keys]
  rfl

/-- `dedupByCode` yields pairwise-distinct codes. -/
theorem dedupByCode_codes_nodup (rs : List SelectionRecord) :
    ((dedupByCode rs).map SelectionRecord.code).Nodup := by
  unfold dedupByCode
  rw [List.map_map]
  have h1 : (buildDict [] (rs.map (fun v => (v.code, v)))).map
      (SelectionRecord.code ∘ Prod.snd) =
      keys (buildDict [] (rs.map (fun v => (v.code, v)))) := by
    unfold keys
    apply map_congr_mem
    intro p hp
    exact (dedupDict_prop rs p hp).1
  rw [h1]
  exact keys_buildDict_nodup _ [] List.nodup_nil

/-- Each record surviving `dedupByCode` is the last input record bearing its
code. -/
theorem dedupByCode_mem_last (rs : List SelectionRecord) (r : SelectionRecord)
    (hr : r ∈ dedupByCode rs) :
    rs.reverse.find? (fun x => x.code == r.code) = some r := by
  obtain ⟨p, hp, hsnd⟩ :=
    List.mem_map.mp (show r ∈ (buildDict [] (rs.map (fun v => (v.code, v)))).map Prod.snd from hr)
  have hcode : p.2.code = p.1 := (dedupDict_prop rs p hp).1
  have hnodup := keys_buildDict_nodup (rs.map (fun v => (v.code, v))) [] List.nodup_nil
  have hlook := lookupDict_of_mem_nodup _ hnodup p hp
  have hV := lookupDict_buildDict (rs.map (fun v => (v.code, v))) [] p.1
  rw [hlook] at hV
  cases hf : ((rs.map fun v => (v.code, v)).reverse.find? fun q => q.1 == p.1) with
  | none =>
    rw [hf] at hV
    exact absurd hV (by simp [lookupDict])
  | some q =>
    rw [hf] at hV
    have hq2 : p.2 = q.2 := Option.some.inj hV
    rw [← List.map_reverse, List.find?_map] at hf
    obtain ⟨v0, hv0, hv0q⟩ := Option.map_eq_some'.mp hf
    have hp1 : r.code = p.1 := by
      rw [← hsnd]
      exact hcode
    have h1 : q.2 = v0 := by
      rw [← hv0q]
    have hv0r : v0 = r := h1.symm.trans (hq2.symm.trans hsnd)
    rw [hp1, ← hv0r]
    exact hv0

/-! ### Idempotence infrastructure -/

/-- `filterMap` with a function fixing every member is the identity. -/
theorem filterMap_eq_self {α : Type} (f : α → Option α) :
    ∀ (l : List α), (∀ a ∈ l, f a = some a) → l.filterMap f = l := by
  intro l
  induction l with
  | nil =>
    intro _
    rfl
  | cons x xs ih =>
    intro h
    have hx := h x (List.mem_cons_self x xs)
    have hxs := ih (fun a ha => h a (List.mem_cons_of_mem x ha))
    simp [List.filterMap_cons, hx, hxs]

/-- Folding pairwise-distinct keys disjoint from the accumulator only
appends. -/
theorem buildDict_disjoint_append {α : Type} :
    ∀ (ins acc : List (Nat × α)), (keys ins).Nodup →
      (∀ k ∈ keys acc, k ∉ keys ins) → buildDict acc ins = acc ++ ins := by
  intro ins
  induction ins with
  | nil =>
    intro acc _ _
    rw [buildDict_nil, List.append_nil]
  | cons q ins ih =>
    intro acc hnd hdisj
    rw [buildDict_cons]
    have hq : q.1 ∉ keys acc := by
      intro hc
      exact hdisj q.1 hc (List.mem_cons_self q.1 (keys ins))
    have hins : dictInsert acc q.1 q.2 = acc ++ [q] := by
      unfold dictInsert
      rw [if_neg (fun hc => hq ((anyKey_eq_true acc q.1).mp hc))]
    have hnd' : (keys ins).Nodup := (List.nodup_cons.mp hnd).2
    have hdisj' : ∀ k ∈ keys (acc ++ [q]), k ∉ keys ins := by
      intro k hk
      have hsplit : k ∈ keys acc ∨ k = q.1 := by
        unfold keys at hk
        rw [List.map_append] at hk
        rcases List.mem_append.mp hk with h | h
        · exact Or.inl h
        · right
          simpa using h
      rcases hsplit with h | h
      · intro hc
        exact hdisj k h (List.mem_cons_of_mem q.1 hc)
      · subst h
        exact (List.nodup_cons.mp hnd).1
    rw [hins, ih (acc ++ [q]) hnd' hdisj', List.append_assoc]
    rfl

/-- On a list with pairwise-distinct codes, the dict dedup is the identity. -/
theorem dedupByCode_eq_self (rs : List SelectionRecord)
    (h : (rs.map SelectionRecord.code).Nodup) : dedupByCode rs = rs := by
  unfold dedupByCode
  have h1 := buildDict_disjoint_append (rs.map (fun v => (v.code, v))) []
    (by rw [dedupDict_keys]; exact h)
    (by intro k hk; exact absurd hk (List.not_mem_nil k))
  rw [h1, List.nil_append, List.map_map]
  have h2 : ∀ v ∈ rs, (Prod.snd ∘ fun v => (v.code, v)) v = id v := fun v _ => rfl
  rw [map_congr_mem rs _ id h2, List.map_id]

/-- A record produced by resolution resolves to itself: its code is the
code under which its catalog entry was found, and resolving it again finds
the same entry and preserves the explanation. -/
theorem resolveList_fixed (cat : List CatalogEntry) (vs : List SelectionRecord) :
    ∀ v ∈ resolveList cat vs, resolveRecord cat v = some v := by
  intro v hv
  rcases List.mem_filterMap.mp hv with ⟨v0, _, hres⟩
  unfold resolveRecord at hres
  rcases Option.map_eq_some'.mp hres with ⟨e, hfind, hmk⟩
  have hecode : e.code = v0.code := by
    unfold find_vykon_by_code at hfind
    exact eq_of_beq (find?_pred (fun x : CatalogEntry => x.code == v0.code) cat e hfind)
  subst hmk
  unfold resolveRecord
  show (find_vykon_by_code cat e.code).map _ = _
  rw [hecode, hfind]
  simp [hecode]

/-! ### Co-occurrence model lemmas -/

/-- A left fold by `Nat.min` is bounded by its seed. -/
theorem foldl_min_le_seed : ∀ (xs : List Nat) (x : Nat), xs.foldl Nat.min x ≤ x := by
  intro xs
  induction xs with
  | nil =>
    intro x
    exact Nat.le_refl x
  | cons y ys ih =>
    intro x
    exact Nat.le_trans (ih (Nat.min x y)) (Nat.min_le_left x y)

/-- A left fold by `Nat.min` is bounded by every list element. -/
theorem foldl_min_le_mem : ∀ (xs : List Nat) (x a : Nat), a ∈ xs → xs.foldl Nat.min x ≤ a := by
  intro xs
  induction xs with
  | nil =>
    intro x a ha
    cases ha
  | cons y ys ih =>
    intro x a ha
    rcases List.mem_cons.mp ha with rfl | ha'
    · exact Nat.le_trans (foldl_min_le_seed ys (Nat.min x a)) (Nat.min_le_right x a)
    · exact ih (Nat.min x y) a ha'

/-- `incidence` vanishes for a code absent from the table. -/
theorem incidence_eq_zero (txns : List (Nat × Nat)) (t b : Nat)
    (hb : b ∉ codes txns) : incidence txns t b = 0 := by
  unfold incidence
  rw [List.length_eq_zero, List.filter_eq_nil_iff]
  intro p hp hc
  rw [Bool.and_eq_true] at hc
  apply hb
  unfold codes
  rw [List.mem_dedup]
  exact (eq_of_beq hc.2) ▸ List.mem_map_of_mem Prod.snd hp

/-- `rawCo` vanishes when the column code is absent from the table. -/
theorem rawCo_eq_zero (txns : List (Nat × Nat)) (a b : Nat)
    (hb : b ∉ codes txns) : rawCo txns a b = 0 := by
  unfold rawCo
  apply List.sum_eq_zero
  intro x hx
  rcases List.mem_map.mp hx with ⟨t, _, rfl⟩
  rw [incidence_eq_zero txns t b hb, Nat.mul_zero]

/-- Every column of the zero-diagonal count matrix contains a zero (the
diagonal cell when the code is a column label, every cell otherwise), so the
pandas column minimum is 0. -/
theorem colMin_eq_zero (txns : List (Nat × Nat)) (b : Nat) : colMin txns b = 0 := by
  unfold colMin
  cases hcv : colVals txns b with
  | nil => rfl
  | cons x xs =>
    have hzero : (0:Nat) ∈ colVals txns b := by
      by_cases hb : b ∈ codes txns
      · have : coMatrix txns b b = 0 := by
          unfold coMatrix
          rw [if_pos rfl]
        unfold colVals
        exact this ▸ List.mem_map_of_mem (fun a => coMatrix txns a b) hb
      · have hne : colVals txns b ≠ [] := by
          rw [hcv]
          exact List.cons_ne_nil x xs
        obtain ⟨r, hr⟩ := List.exists_mem_of_ne_nil (codes txns)
          (fun hc => hne (by unfold colVals; rw [hc]; rfl))
        have : coMatrix txns r b = 0 := by
          unfold coMatrix
          split
          · rfl
          · exact rawCo_eq_zero txns r b hb
        unfold colVals
        exact this ▸ List.mem_map_of_mem (fun a => coMatrix txns a b) hr
    rw [hcv] at hzero
    rcases List.mem_cons.mp hzero with h0 | h0
    · rw [← h0]
      exact Nat.le_antisymm (h0 ▸ foldl_min_le_seed xs x) (Nat.zero_le _)
    · exact Nat.le_antisymm (foldl_min_le_mem xs x 0 h0) (Nat.zero_le _)

/-- The raw inner-product matrix is symmetric. -/
theorem rawCo_symm (txns : List (Nat × Nat)) (a b : Nat) :
    rawCo txns a b = rawCo txns b a := by
  unfold rawCo
  have h : (fun t => incidence txns t a * incidence txns t b) =
      (fun t => incidence txns t b * incidence txns t a) := by
    funext t
    exact Nat.mul_comm _ _
  rw [h]

/-- The zero-diagonal count matrix is symmetric. -/
theorem coMatrix_symm (txns : List (Nat × Nat)) (a b : Nat) :
    coMatrix txns a b = coMatrix txns b a := by
  unfold coMatrix
  by_cases hab : a = b
  · rw [if_pos hab, if_pos hab.symm]
  · rw [if_neg hab, if_neg (fun hc => hab hc.symm), rawCo_symm]

/-- The normalized matrix has zero diagonal: the diagonal count is forced to
0, the column minimum is 0, and a constant column normalizes to 0 by
`fillna`. -/
theorem strength_diag (txns : List (Nat × Nat)) (a : Nat) : strength txns a a = 0 := by
  unfold strength
  split
  · rfl
  · have hdiag : coMatrix txns a a = 0 := by
      unfold coMatrix
      rw [if_pos rfl]
    rw [hdiag, colMin_eq_zero]
    norm_num

/-! ### Reconciliation lemmas -/

/-- A record kept by the `validate` loop differs from its input record only
in the `explanation` field. -/
theorem reconcileOne_eraseExpl (verdicts : List VykonAction) (v r : SelectionRecord)
    (h : reconcileOne verdicts v = some r) : eraseExpl r = eraseExpl v := by
  unfold reconcileOne at h
  cases hf : verdicts.find? (fun w => w.code == v.code) with
  | none =>
    rw [hf] at h
    replace h : some ({ v with explanation := none } : SelectionRecord) = some r := h
    rw [← Option.some.inj h]
    rfl
  | some w =>
    rw [hf] at h
    replace h : (if w.action = Act.remove then (none : Option SelectionRecord)
        else some { v with explanation := some w.explanation }) = some r := h
    split at h
    · exact absurd h (by simp)
    · rw [← Option.some.inj h]
      rfl

/-- C10: the output of the validation stage is a subsequence of its input —
it never adds records and preserves the relative order of the kept records —
and each kept record agrees with its input record on every field except the
explanation (which the stage overwrites). -/
theorem validate_frame (verdicts : List VykonAction) (vs : List SelectionRecord) :
    ((validate verdicts vs).map eraseExpl).Sublist (vs.map eraseExpl) := by
  induction vs with
  | nil => exact List.Sublist.refl _
  | cons v rest ih =>
    show ((List.filterMap (reconcileOne verdicts) (v :: rest)).map eraseExpl).Sublist _
    rw [List.filterMap_cons]
    cases hr : reconcileOne verdicts v with
    | none =>
      exact List.Sublist.cons (eraseExpl v) ih
    | some r =>
      rw [List.map_cons, List.map_cons, reconcileOne_eraseExpl verdicts v r hr]
      exact List.Sublist.cons₂ (eraseExpl v) ih

/-- C6: a record with no matching verdict is kept with an unset explanation;
a record is dropped only when its first matching verdict orders `remove`
(so a dropped record always has a matching `remove` verdict); and a kept
record with a matching verdict carries that verdict's explanation. -/
theorem validate_fail_open (verdicts : List VykonAction) (vs : List SelectionRecord)
    (v : SelectionRecord) (hv : v ∈ vs) :
    (verdicts.find? (fun w => w.code == v.code) = none →
      ({ v with explanation := none } : SelectionRecord) ∈ validate verdicts vs) ∧
    (reconcileOne verdicts v = none →
      ∃ w ∈ verdicts, w.code = v.code ∧ w.action = Act.remove) ∧
    (∀ w, verdicts.find? (fun w2 => w2.code == v.code) = some w → w.action ≠ Act.remove →
      ({ v with explanation := some w.explanation } : SelectionRecord) ∈
        validate verdicts vs) := by
  refine ⟨?_, ?_, ?_⟩
  · intro hf
    apply List.mem_filterMap.mpr
    refine ⟨v, hv, ?_⟩
    unfold reconcileOne
    rw [hf]
  · intro hnone
    unfold reconcileOne at hnone
    cases hf : verdicts.find? (fun w => w.code == v.code) with
    | none =>
      rw [hf] at hnone
      replace hnone : some ({ v with explanation := none } : SelectionRecord) = none := hnone
      simp at hnone
    | some w =>
      rw [hf] at hnone
      replace hnone : (if w.action = Act.remove then (none : Option SelectionRecord)
          else some { v with explanation := some w.explanation }) = none := hnone
      split at hnone
      next hrem =>
        exact ⟨w, List.mem_of_find?_eq_some hf,
          eq_of_beq (find?_pred (fun w2 => w2.code == v.code) verdicts w hf), hrem⟩
      next => simp at hnone
  · intro w hf hkeep
    apply List.mem_filterMap.mpr
    refine ⟨v, hv, ?_⟩
    unfold reconcileOne
    rw [hf]
    show (if w.action = Act.remove then (none : Option SelectionRecord)
        else some { v with explanation := some w.explanation }) =
      some { v with explanation := some w.explanation }
    rw [if_neg hkeep]

/-- Witness for C6: with the single verdict `wKeep` (code 7, keep, "ok"),
the record with code 7 is kept and carries the verdict's explanation. -/
theorem validate_fail_open_witness :
    ({ code := 7, name := "n", descr := none, explanation := some "ok" } : SelectionRecord) ∈
      validate [wKeep] [recSeven] :=
  (validate_fail_open [wKeep] [recSeven] recSeven (by decide)).2.2 wKeep (by decide) (by decide)

/-! ### Schema containment -/

/-- Every definition of the built `definitions` dict carries the code of
some candidate. -/
theorem buildDefs_prop (cands : List CatalogEntry) :
    ∀ p ∈ buildDefs cands, p.2.code ∈ cands.map CatalogEntry.code := by
  apply buildDict_mem_prop
  · intro p hp
    exact absurd hp (List.not_mem_nil p)
  · intro p hp
    rcases List.mem_map.mp hp with ⟨e, he, rfl⟩
    exact List.mem_map_of_mem CatalogEntry.code he

/-- C9: every billing code accepted by the dynamically built schema is a
member of the candidate set: an accepted `vykony` item satisfies some
referenced definition, whose `code` const is the code of a candidate. -/
theorem schema_containment (cands rs : List CatalogEntry)
    (h : schemaAccepts cands rs = true) :
    ∀ r ∈ rs, r.code ∈ cands.map CatalogEntry.code := by
  intro r hr
  unfold schemaAccepts at h
  rw [Bool.and_eq_true] at h
  have hall := (List.all_eq_true.mp h.2) r hr
  unfold itemAccepts at hall
  obtain ⟨k, hk, hmatch⟩ := List.any_eq_true.mp hall
  cases hl : lookupDict (buildDefs cands) k with
  | none =>
    rw [hl] at hmatch
    simp at hmatch
  | some d =>
    rw [hl] at hmatch
    have hcode : r.code = d.code := by
      unfold defAccepts at hmatch
      rw [Bool.and_eq_true, Bool.and_eq_true] at hmatch
      exact eq_of_beq hmatch.1.1
    unfold lookupDict at hl
    rcases Option.map_eq_some'.mp hl with ⟨p, hfind, hpd⟩
    have hpmem := List.mem_of_find?_eq_some hfind
    have hp2 := buildDefs_prop cands p hpmem
    rw [hcode, ← hpd]
    exact hp2

/-- Witness for C9: the schema built from the single candidate `ceFive`
accepts the matching record, whose code 5 is in the candidate code set. -/
theorem schema_containment_witness : ceFive.code ∈ [ceFive].map CatalogEntry.code :=
  schema_containment [ceFive] [ceFive] (by decide) ceFive (by decide)

/-! ### Idempotence of the identity dedup -/

/-- C8: the `clear` stage is idempotent: its output records all resolve to
themselves with pairwise-distinct codes, so resolving again is the identity
and the dict dedup of a duplicate-free list is the identity. -/
theorem clear_idempotent (cat : List CatalogEntry) (vs : List SelectionRecord) :
    clear cat (clear cat vs) = clear cat vs := by
  have h1 : ∀ r ∈ clear cat vs, resolveRecord cat r = some r := by
    intro r hr
    exact resolveList_fixed cat vs r (dedupByCode_mem (resolveList cat vs) r hr)
  have h2 : resolveList cat (clear cat vs) = clear cat vs :=
    filterMap_eq_self (resolveRecord cat) (clear cat vs) h1
  show dedupByCode (resolveList cat (clear cat vs)) = clear cat vs
  rw [h2]
  exact dedupByCode_eq_self (clear cat vs) (dedupByCode_codes_nodup (resolveList cat vs))

/-! ### Claims about the co-occurrence model -/

/-- Counterexample to C2: on the concrete table `txnsSym`, the normalized
matrix is not symmetric — the cell at (10, 20) is 1 while the cell at
(20, 10) is 1/2, because each column is normalized by its own maximum. -/
theorem strength_not_symmetric : strength txnsSym 10 20 ≠ strength txnsSym 20 10 := by
  rw [strength_sym_10_20, strength_sym_20_10]
  norm_num

/-- C2 (amended): the zero-diagonal count matrix underlying the model is
symmetric, and the normalized matrix has zero diagonal; but because the
pandas normalization is per column (each column divided by its own range),
symmetry of the normalized strengths fails in general. -/
theorem coMatrix_symm_and_strength_diag (txns : List (Nat × Nat)) (a b : Nat) :
    coMatrix txns a b = coMatrix txns b a ∧ strength txns a a = 0 :=
  ⟨coMatrix_symm txns a b, strength_diag txns a⟩

/-! ### Claims about the schema builder -/

/-- Counterexample to C4: with an empty candidate set the `model` stage does
not short-circuit — it still builds the schema, whose `code_refs` list is
empty; that schema rejects every `vykony` value, including the empty list
(`minItems: 1`), so it is an always-invalid schema rather than a skipped
stage yielding an empty selection. -/
theorem empty_candidates_schema_rejects :
    buildRefs [] = [] ∧ schemaAccepts [] [] = false ∧ schemaAccepts [] [ceFive] = false := by
  decide

/-- C4 (amended): an empty candidate set yields a schema accepting no value
of `vykony` at all: the empty array fails `minItems: 1` and any nonempty
array fails the empty `anyOf`. -/
theorem empty_candidates_always_invalid (rs : List CatalogEntry) :
    schemaAccepts [] rs = false := by
  cases rs with
  | nil => rfl
  | cons r rest =>
    unfold schemaAccepts
    rw [List.all_cons]
    unfold itemAccepts buildRefs
    simp

/-! ### Claims about the augmentation stage -/

/-- Counterexample to C5: with zero retrieved documents the augmentation
stage does not return the selection unchanged — `pd.DataFrame([])` has no
`"code"` column and the stage raises (modelled as `none`). -/
theorem add_co_occurrence_empty_docs_raises :
    add_co_occurrence txnsAug catAug [] [recPivot] = none ∧
      add_co_occurrence txnsAug catAug [] [recPivot] ≠ some [recPivot] := by
  have h1 : add_co_occurrence txnsAug catAug [] [recPivot] = none := by
    unfold add_co_occurrence
    rw [if_pos rfl]
  refine ⟨h1, ?_⟩
  rw [h1]
  simp

/-- C5 (amended): whenever semantic retrieval returns zero documents, the
augmentation stage fails (the empty document table has no `code` column)
instead of completing normally. -/
theorem add_co_occurrence_empty_docs (txns : List (Nat × Nat)) (cat : List CatalogEntry)
    (vykony : List SelectionRecord) : add_co_occurrence txns cat [] vykony = none := by
  unfold add_co_occurrence
  rw [if_pos rfl]

/-- Counterexample to C3: on `txnsAug` the retrieved anchor 100 has
`strength(42022, 100) = 0.75 ≥ 0.6`, yet the stage adds the pivot code
42022, not the anchor code 100 (the collected `df["kod"]` values are the
pivot rows). -/
theorem augmentation_adds_pivot_not_anchor :
    strength txnsAug 42022 100 = 3/4 ∧
    add_co_occurrence txnsAug catAug [100] [] = some [recPivot] ∧
    ¬ (100 ∈ [recPivot].map SelectionRecord.code) :=
  ⟨strength_aug_42022_100, add_co_aug, by decide⟩

/-- C3 (amended): on retrieved anchors that are all matrix columns the stage
succeeds; every pivot whose strength against some anchor is at or above 0.6
is added, resolved via the catalog, to the end of the list; and if every
pivot scores below 0.6 against every anchor, nothing is added and the
selection is returned unchanged. -/
theorem add_co_occurrence_threshold (txns : List (Nat × Nat)) (cat : List CatalogEntry)
    (docCodes : List Nat) (vykony : List SelectionRecord)
    (hne : docCodes ≠ []) (hin : ∀ c ∈ docCodes, c ∈ codes txns) :
    ∃ out, add_co_occurrence txns cat docCodes vykony = some out ∧
      (∀ p c e, p ∈ pivots → p ∈ codes txns → c ∈ docCodes →
        (0.6 : ℚ) ≤ strength txns p c → find_vykon_by_code cat p = some e →
        (⟨e.code, e.name, e.descr, none⟩ : SelectionRecord) ∈ out) ∧
      ((∀ p c, p ∈ pivots → c ∈ docCodes → strength txns p c < 0.6) → out = vykony) := by
  unfold add_co_occurrence
  rw [if_neg hne]
  have hall : (docCodes.all fun c => decide (c ∈ codes txns)) = true := by
    rw [List.all_eq_true]
    intro c hc
    exact decide_eq_true (hin c hc)
  rw [if_pos hall]
  refine ⟨_, rfl, ?_, ?_⟩
  · intro p c e hp hpc hcdoc hstr hfind
    apply List.mem_append_right
    apply List.mem_filterMap.mpr
    refine ⟨p, ?_, ?_⟩
    · rw [List.mem_dedup]
      unfold toAddCodes
      apply List.mem_flatMap.mpr
      refine ⟨c, hcdoc, ?_⟩
      rw [List.mem_filter]
      refine ⟨hpc, ?_⟩
      rw [Bool.and_eq_true]
      exact ⟨decide_eq_true hp, decide_eq_true hstr⟩
    · rw [hfind]
      rfl
  · intro hlt
    have hempty : toAddCodes txns docCodes = [] := by
      unfold toAddCodes
      rw [List.flatMap_eq_nil_iff]
      intro c hc
      rw [List.filter_eq_nil_iff]
      intro p hp hpred
      rw [Bool.and_eq_true] at hpred
      have hp_pivot : p ∈ pivots := of_decide_eq_true hpred.1
      have hp_str : (0.6 : ℚ) ≤ strength txns p c := of_decide_eq_true hpred.2
      exact absurd hp_str (not_le.mpr (hlt p c hp_pivot hc))
    rw [hempty]
    simp

/-- Witness for C3 (amended): on `txnsAug` with anchor 100, the stage
succeeds and the pivot record for 42022 (strength 0.75 ≥ 0.6) is in the
output. -/
theorem add_co_occurrence_threshold_witness :
    ∃ out, add_co_occurrence txnsAug catAug [100] [] = some out ∧ recPivot ∈ out := by
  obtain ⟨out, h1, h2, _⟩ := add_co_occurrence_threshold txnsAug catAug [100] []
    (by decide) (by decide)
  exact ⟨out, h1, h2 42022 100 ⟨42022, "Pivot", none⟩ (by decide) (by decide) (by decide)
    strength_aug_ge (by decide)⟩

/-! ### Claims about the identity dedup and the stage order -/

/-- Counterexample to C7: in `vsDup` code 1 occurs at positions 0 and 2
around code 2; `clear` keeps the last occurrence's record (explanation "c")
but places it at the position of the code's first occurrence, not its last. -/
theorem clear_not_last_position :
    clear catDup vsDup = [⟨1, "A", none, some "c"⟩, ⟨2, "B", none, none⟩] ∧
      clear catDup vsDup ≠ [⟨2, "B", none, none⟩, ⟨1, "A", none, some "c"⟩] := by
  decide

/-- C7 (amended): the dedup resolves records against the catalog, silently
discards unresolved ones, and keeps exactly one record per code — the
record of the code's last surviving occurrence (carrying its explanation) —
placed at the insertion-order position of the code's first occurrence. -/
theorem clear_characterization (cat : List CatalogEntry) (vs : List SelectionRecord) :
    (clear cat vs).map SelectionRecord.code =
      firstDedup ((resolveList cat vs).map SelectionRecord.code) ∧
    ∀ r ∈ clear cat vs,
      (resolveList cat vs).reverse.find? (fun x => x.code == r.code) = some r := by
  constructor
  · exact dedupByCode_map_code (resolveList cat vs)
  · intro r hr
    exact dedupByCode_mem_last (resolveList cat vs) r hr

/-- Witness for C7 (amended): on `catDup`/`vsDup` the code order is the
first-occurrence order `[1, 2]`, and the kept record for code 1 is the last
occurrence's record (explanation "c"). -/
theorem clear_characterization_witness :
    (clear catDup vsDup).map SelectionRecord.code =
      firstDedup ((resolveList catDup vsDup).map SelectionRecord.code) ∧
    (resolveList catDup vsDup).reverse.find?
      (fun x => x.code == (⟨1, "A", none, some "c"⟩ : SelectionRecord).code) =
      some ⟨1, "A", none, some "c"⟩ :=
  ⟨(clear_characterization catDup vsDup).1,
   (clear_characterization catDup vsDup).2 ⟨1, "A", none, some "c"⟩ (by decide)⟩

/-- Counterexample to C1: `edge_chain` runs `clear` before
`add_co_occurrence`, and on `txnsAug` a run whose model output already holds
the pivot record terminates with that record duplicated — the terminal
`diagnosis.vykony` has two entries with code 42022. -/
theorem pipeline_terminal_duplicates :
    edge_chain.indexOf "clear" < edge_chain.indexOf "add_co_occurrence" ∧
    pipelineFinal txnsAug catAug [] [100] [recPivot] = some [recPivot, recPivot] ∧
    ¬ (([recPivot, recPivot].map SelectionRecord.code).Nodup) :=
  ⟨by decide, pipeline_aug, by decide⟩

/-- C1 (amended): the identity dedup runs directly before, not after, the
augmentation stage (`edge_chain` order `validate`, `clear`,
`add_co_occurrence`); duplicate-freedom of `diagnosis.vykony` therefore
holds at the end of `clear`, but not necessarily at the terminal state. -/
theorem dedup_before_augmentation :
    (∀ (cat : List CatalogEntry) (vs : List SelectionRecord),
      ((clear cat vs).map SelectionRecord.code).Nodup) ∧
    edge_chain.indexOf "clear" + 1 = edge_chain.indexOf "add_co_occurrence" := by
  constructor
  · intro cat vs
    exact dedupByCode_codes_nodup (resolveList cat vs)
  · decide
